import Mathlib

/-!
Verification of `searcher.py` (Database-Lumina): a Discord card-ownership
indexer with a JSON-file database and a small HTTP search surface.

The embedding below translates the pure content of the script:

* `clean_card_name` (line 77-81): `re.sub(r'^\d+\s*-\s*[A-Z-]*\s*', '', line).strip()`.
  The regex is anchored and, component by component, deterministic under
  leftmost-greedy matching (digits, whitespace, the literal dash, the
  uppercase-or-dash tag class and whitespace are pairwise disjoint at every
  boundary), so the substitution removes exactly the greedy prefix computed by
  `subLeadingTag`.  ASCII inputs are assumed: `\d`, `\s`, `[A-Z-]`, `lower` and
  `strip` are modelled on their ASCII meaning.
* the embed handler `on_message` (line 83-106): owner extraction via
  `re.search(r"/avatars/(\d+)/", url)` (leftmost match, modelled by
  `searchAvatars`), `name.split("'s")[0]`, the per-card read-modify-append on
  the dict (`processCard` / `processCards`), and the save-if-updated step
  (`handleEmbed`).
* the database file (line 42-57): `load_database` / `save_database`.  JSON text
  encoding itself is a library responsibility; the file is modelled as either
  absent, or holding the outcome of parsing its text (`Except`: a parse/read
  error, or the parsed JSON value `Jval`).  `save_database` stores the JSON
  value `json.dump` serializes; `decodeDB` reads such a value back as the
  mapping, exactly the shape `json.load` returns for files this program writes.
  The `Bool` returned beside the value by `load_database` records whether
  `logging.error` ran.
* the Flask handlers `api_search` (line 120-128) and `api_logs` (line 117-119),
  and the log buffer `log_to_global` (line 143-146).  `api_search` is
  instrumented with a counter of `load_database` invocations; the Python `set`
  of found ids followed by `sorted` is modelled as `dedup` followed by
  `insertionSort` under the lexicographic order on strings (same sorted,
  duplicate-free result).
-/

namespace Lumina

/-- ASCII whitespace, the characters Python's `\s` and `str.strip()` treat as
space on ASCII text. -/
def isPySpace (c : Char) : Bool :=
  c = ' ' || c = '\t' || c = '\n' || c = '\r' || c = '\x0b' || c = '\x0c'

/-- Python `str.lower()` on ASCII text. -/
def pyLower (s : String) : String :=
  ⟨s.data.map Char.toLower⟩

/-- Python `str.strip()` on a character list: drop whitespace from both ends. -/
def stripEnds (cs : List Char) : List Char :=
  (cs.dropWhile isPySpace).rdropWhile isPySpace

/-- Python `str.strip()`. -/
def pyStrip (s : String) : String :=
  ⟨stripEnds s.data⟩

/-- `needle` occurs as a contiguous run inside `hay` (Python's `in` on
strings), by scanning every start position left to right. -/
def listContains : List Char → List Char → Bool
  | [], needle => needle.isPrefixOf []
  | c :: t, needle => needle.isPrefixOf (c :: t) || listContains t needle

/-- Python `needle in hay` for strings. -/
def strContains (hay needle : String) : Bool :=
  listContains hay.data needle.data

/-- The character class `[A-Z-]` of the card-name regex. -/
def isTagChar (c : Char) : Bool :=
  ('A' ≤ c && c ≤ 'Z') || c = '-'

/-- The effect of `re.sub(r'^\d+\s*-\s*[A-Z-]*\s*', '', line)`: if the line
starts with digits, then optional whitespace and a dash, the greedy match
(digits, whitespace, the dash, whitespace, `[A-Z-]` characters, whitespace) is
removed; otherwise the line is unchanged. -/
def subLeadingTag (cs : List Char) : List Char :=
  match cs with
  | [] => cs
  | c :: _ =>
    if c.isDigit then
      match (cs.dropWhile Char.isDigit).dropWhile isPySpace with
      | '-' :: r3 => ((r3.dropWhile isPySpace).dropWhile isTagChar).dropWhile isPySpace
      | _ => cs
    else cs

/-- `IndexerBot.clean_card_name` (line 77-81): strip the numeric/tag prefix,
then `.strip()`.  The `except` branch is unreachable for strings (`re.sub` on a
`str` does not raise), so the translation is the `try` body. -/
def clean_card_name (line : String) : String :=
  pyStrip ⟨subLeadingTag line.data⟩

/-- Python `str.split(sep)` for a one-character separator: split at every
occurrence, keeping empty pieces (`"".split('\n') == [""]`). -/
def splitOnChar (sep : Char) : List Char → List (List Char)
  | [] => [[]]
  | c :: rest =>
    match splitOnChar sep rest with
    | h :: t => if c = sep then [] :: h :: t else (c :: h) :: t
    | [] => if c = sep then [[], []] else [[c]]

/-- Line 93: `[self.clean_card_name(line) for line in embed.description.split('\n')]`. -/
def cardsInEmbed (desc : String) : List String :=
  (splitOnChar '\n' desc.data).map (fun l => clean_card_name ⟨l⟩)

/-- The card names the handler actually indexes from an embed body: the
cleaned lines with the blank results discarded (line 93 together with the
`if not card_name: continue` skip on line 97). -/
def extractNonBlankCards (desc : String) : List String :=
  (cardsInEmbed desc).filter (fun s => s != "")

/-- The apostrophe character, U+0027. -/
def apoChar : Char := Char.ofNat 39

/-- The separator string of `embed.author.name.split("'s")`. -/
def apoS : String := ⟨[apoChar, 's']⟩

/-- The text before the first occurrence of `sep` in `cs` (the whole list when
`sep` does not occur): `cs.split(sep)[0]` for a nonempty `sep`. -/
def beforeFirst (sep : List Char) : List Char → List Char
  | [] => []
  | c :: rest =>
    if sep.isPrefixOf (c :: rest) then []
    else c :: beforeFirst sep rest

/-- Line 92: `owner_name = embed.author.name.split("'s")[0]`. -/
def ownerLabel (name : String) : String :=
  ⟨beforeFirst apoS.data name.data⟩

/-- The literal part `/avatars/` of the owner-id pattern. -/
def avatarsPat : List Char := "/avatars/".data

/-- Match `(\d+)/` at the head of `cs`: one or more digits followed by a
slash, returning the digits.  Greedy `\d+` is deterministic here because a
digit is never `'/'`. -/
def matchDigitsSlash (cs : List Char) : Option String :=
  let ds := cs.takeWhile Char.isDigit
  if ds.isEmpty then none
  else
    match cs.dropWhile Char.isDigit with
    | '/' :: _ => some ⟨ds⟩
    | _ => none

/-- `re.search(r"/avatars/(\d+)/", url)`: try every start position left to
right and return the first full match's digit group. -/
def searchAvatars : List Char → Option String
  | [] => none
  | c :: rest =>
    if avatarsPat.isPrefixOf (c :: rest) then
      match matchDigitsSlash ((c :: rest).drop avatarsPat.length) with
      | some d => some d
      | none => searchAvatars rest
    else searchAvatars rest

/-- Line 89-91: the owner id captured from the icon URL, `None` when the
pattern does not match. -/
def extractOwnerId (url : String) : Option String :=
  searchAvatars url.data

/-- One attempt of `re.search(r"/avatars/(\d+)/", ...)` at a fixed start
position: the literal `/avatars/`, then one or more digits and a slash, at the
head of `cs`.  `searchAvatars` returns the result of the first position where
this attempt succeeds. -/
def avatarsMatchAt (cs : List Char) : Option String :=
  if avatarsPat.isPrefixOf cs then matchDigitsSlash (cs.drop avatarsPat.length)
  else none

end Lumina

namespace Lumina

/-- The in-memory card database: the dict from card name to list of owner-id
strings, as an insertion-ordered association list (Python dicts preserve
insertion order; keys are unique). -/
abbrev DB := List (String × List String)

/-- Dict key lookup: the value at the first entry whose key is `k`. -/
def lookupDB : DB → String → Option (List String)
  | [], _ => none
  | kv :: rest, k => if kv.1 = k then some kv.2 else lookupDB rest k

/-- Replace the value at the first entry whose key is `k`; identity when the
key is absent (models in-place mutation of `db[k]`). -/
def updateDB : DB → String → List String → DB
  | [], _, _ => []
  | kv :: rest, k, v => if kv.1 = k then (k, v) :: rest else kv :: updateDB rest k v

/-- `db[card]` for a present key (`[]` in the impossible missing case). -/
def ownersOf (db : DB) (card : String) : List String :=
  (lookupDB db card).getD []

/-- Lines 98-101, one card: create an empty entry if the card is absent, then
append the owner if not already present.  The `Bool` reports whether the card
was appended to `updated_cards` (it received a new owner). -/
def processCard (db : DB) (owner card : String) : DB × Bool :=
  let db1 :=
    match lookupDB db card with
    | some _ => db
    | none => db ++ [(card, [])]
  let os := ownersOf db1 card
  if owner ∈ os then (db1, false)
  else (updateDB db1 card (os ++ [owner]), true)

/-- The loop of lines 96-101 over the extracted card names: skip blank names,
index the rest, and collect the names that received a new owner, in order. -/
def processCards (owner : String) : DB → List String → DB × List String
  | db, [] => (db, [])
  | db, card :: rest =>
    if card = "" then processCards owner db rest
    else
      let pr := processCard db owner card
      let prs := processCards owner pr.1 rest
      (prs.1, if pr.2 then card :: prs.2 else prs.2)

/-- JSON values, as parsed by `json.load` / serialized by `json.dump`. -/
inductive Jval where
  | jnull : Jval
  | jbool : Bool → Jval
  | jnum : Int → Jval
  | jstr : String → Jval
  | jarr : List Jval → Jval
  | jobj : List (String × Jval) → Jval

/-- The JSON value `json.dump` writes for one owner list. -/
def encodeOwners (os : List String) : Jval :=
  Jval.jarr (os.map Jval.jstr)

/-- The JSON value `json.dump` writes for the whole database dict. -/
def encodeDB (db : DB) : Jval :=
  Jval.jobj (db.map (fun kv => (kv.1, encodeOwners kv.2)))

/-- Read a JSON array's elements back as strings (the shape `json.load`
returns for an owner list this program wrote). -/
def decodeStrList : List Jval → Option (List String)
  | [] => some []
  | Jval.jstr s :: rest => (decodeStrList rest).map (fun l => s :: l)
  | _ => none

/-- Read a JSON value back as an owner list. -/
def decodeOwners : Jval → Option (List String)
  | Jval.jarr xs => decodeStrList xs
  | _ => none

/-- Read a JSON object's entries back as database entries. -/
def decodeEntries : List (String × Jval) → Option DB
  | [] => some []
  | (k, v) :: rest =>
    match decodeOwners v, decodeEntries rest with
    | some os, some d => some ((k, os) :: d)
    | _, _ => none

/-- Read a JSON value back as the card-database mapping: the value `json.load`
returns for a file written by `save_database` is exactly this mapping. -/
def decodeDB : Jval → Option DB
  | Jval.jobj kvs => decodeEntries kvs
  | _ => none

/-- The state of `card_database.json`: absent, or present with the outcome of
reading and parsing its text (a `JSONDecodeError`/`IOError`, or the parsed
JSON value). -/
inductive DBFile where
  | absent : DBFile
  | content : Except String Jval → DBFile

/-- `load_database` (line 42-50): a missing file is an empty database; a
parse/read failure is caught, logged and treated as an empty database;
otherwise the parsed value is returned as is.  The second component records
whether `logging.error` ran. -/
def load_database : DBFile → Jval × Bool
  | DBFile.absent => (Jval.jobj [], false)
  | DBFile.content (Except.error _) => (Jval.jobj [], true)
  | DBFile.content (Except.ok j) => (j, false)

/-- `save_database` (line 52-57) on the successful path: the file now holds
the JSON serialization of `db` (a write `IOError` would leave the file
untouched and log; no claim exercises it). -/
def save_database (db : DB) : DBFile :=
  DBFile.content (Except.ok (encodeDB db))

/-- The mapping view of a loaded JSON value.  Every reachable database file
was written by `save_database`, whose value always decodes; `json.load`
returns the dict directly, so the `[]` fallback is never reached on program
state. -/
def dbOfJval (j : Jval) : DB :=
  (decodeDB j).getD []

/-- Lexicographic comparison of character lists by code point, the order
Python's `sorted` uses on strings. -/
def charsLe : List Char → List Char → Bool
  | [], _ => true
  | _ :: _, [] => false
  | a :: as, b :: bs => if a = b then charsLe as bs else decide (a < b)

/-- Lexicographic `≤` on strings by code point. -/
def strLeB (a b : String) : Bool :=
  charsLe a.data b.data

/-- The ordering relation `sorted` sorts by. -/
def strLe (a b : String) : Prop :=
  strLeB a b = true

instance : DecidableRel strLe := fun a b => instDecidableEqBool (strLeB a b) true

/-- The loop of lines 126-127: accumulate the owner lists of every card whose
lowercased name contains the query.  The Python code pours them into a `set`;
the duplicates are removed by `dedup` in `api_search` below. -/
def collectOwners (q : String) : DB → List String
  | [] => []
  | kv :: rest =>
    if strContains (pyLower kv.1) q then kv.2 ++ collectOwners q rest
    else collectOwners q rest

/-- Result of one `/api/search` request: the returned owners, and how many
times `load_database` was invoked while serving it. -/
structure SearchOut where
  owners : List String
  loads : Nat
  deriving Repr, DecidableEq

/-- `api_search` (line 120-128): normalize the query with `.lower().strip()`,
answer `[]` without touching storage when it is empty, otherwise load the
database and return the sorted duplicate-free owners of all matching cards
(`sorted(list(set))`, modelled as `insertionSort` of `dedup`). -/
def api_search (f : DBFile) (q : String) : SearchOut :=
  let query := pyStrip (pyLower q)
  if query = "" then { owners := [], loads := 0 }
  else
    let db := dbOfJval (load_database f).1
    { owners := List.insertionSort strLe ((collectOwners query db).dedup),
      loads := 1 }

/-- The string `f"[{time.strftime(...)}] {message}"` (line 145), with the
formatted timestamp as a parameter. -/
def logEntry (stamp msg : String) : String :=
  "[" ++ stamp ++ "] " ++ msg

/-- `log_to_global` (line 143-146): push the stamped message at the front and
keep the first 50 entries. -/
def log_to_global (stamp : String) (logs : List String) (msg : String) : List String :=
  (logEntry stamp msg :: logs).take 50

/-- The log list after a sequence of `(stamp, message)` recording calls,
starting from the empty list the process starts with. -/
def runLogs (entries : List (String × String)) : List String :=
  entries.foldl (fun logs e => log_to_global e.1 logs e.2) []

/-- `api_logs` (line 117-119): serves the current log list as is. -/
def api_logs (logs : List String) : List String :=
  logs

/-- The fields of one embed that `on_message` consumes.  The Python guard
also checks truthiness of `embed.author`/`.name`/`.description`/`.icon_url`;
missing attributes are modelled by empty strings. -/
structure Embed where
  authorName : String
  iconUrl : String
  description : String

/-- What one iteration of the embed loop leaves behind: the in-memory dict,
the database file, `updated_cards`, and whether `save_database` ran and a log
line was emitted. -/
structure EmbedOutcome where
  db : DB
  file : DBFile
  updated : List String
  saved : Bool
  logged : Bool

/-- One iteration of the embed loop of `on_message` (lines 85-106): the
author-field and collection/wishlist guards, the avatar-URL owner-id match
(skip on failure), the card-indexing loop under the lock, and the
save-and-log step that runs only when `updated_cards` is nonempty. -/
def handleEmbed (db : DB) (file : DBFile) (e : Embed) : EmbedOutcome :=
  if e.authorName ≠ "" ∧ e.description ≠ "" ∧ e.iconUrl ≠ "" then
    if strContains (pyLower e.authorName) "collection" = true ∨
        strContains (pyLower e.authorName) "wishlist" = true then
      match extractOwnerId e.iconUrl with
      | none => ⟨db, file, [], false, false⟩
      | some ownerId =>
        let pr := processCards ownerId db (cardsInEmbed e.description)
        if pr.2 = [] then ⟨pr.1, file, pr.2, false, false⟩
        else ⟨pr.1, save_database pr.1, pr.2, true, true⟩
    else ⟨db, file, [], false, false⟩
  else ⟨db, file, [], false, false⟩

/-- The uniqueness invariant of the data model: owner identifiers are unique
within each card's list. -/
def OwnersUnique (db : DB) : Prop :=
  ∀ kv ∈ db, kv.2.Nodup

/-- The search operation exactly as the claim words it (no `.strip()`, no
empty-query guard): lowercase the query, then return the sorted duplicate-free
owners of every card whose name contains that lowercased query
case-insensitively.  Stated for comparison with `api_search`. -/
def searchPerClaimC3 (db : DB) (q : String) : List String :=
  List.insertionSort strLe ((collectOwners (pyLower q) db).dedup)

/-! ### Helper lemmas -/

/-- The front-stripped part of a strip result starts with a non-space
character (or is empty), so stripping the front again does nothing. -/
theorem dropWhile_rdropWhile_dropWhile (cs : List Char) :
    ((cs.dropWhile isPySpace).rdropWhile isPySpace).dropWhile isPySpace =
      (cs.dropWhile isPySpace).rdropWhile isPySpace := by
  rcases hr : (cs.dropWhile isPySpace).rdropWhile isPySpace with _ | ⟨a, r'⟩
  · simp
  · have hrev : (cs.dropWhile isPySpace).reverse.dropWhile isPySpace = (a :: r').reverse := by
      have := congrArg List.reverse hr
      simpa [List.rdropWhile] using this
    obtain ⟨t, ht⟩ := List.dropWhile_suffix (l := (cs.dropWhile isPySpace).reverse) isPySpace
    rw [hrev] at ht
    have hm : cs.dropWhile isPySpace = (a :: r') ++ t.reverse := by
      have := congrArg List.reverse ht
      simpa using this.symm
    have ha : isPySpace a = false := by
      have hhead := List.head?_dropWhile_not isPySpace cs
      rw [hm] at hhead
      simpa using hhead
    simp [List.dropWhile_cons, ha]

/-- `stripEnds` is idempotent. -/
theorem stripEnds_idem (cs : List Char) : stripEnds (stripEnds cs) = stripEnds cs := by
  unfold stripEnds
  rw [dropWhile_rdropWhile_dropWhile, List.rdropWhile_idempotent]

/-- `pyStrip` is idempotent. -/
theorem pyStrip_pyStrip (s : String) : pyStrip (pyStrip s) = pyStrip s :=
  congrArg String.mk (stripEnds_idem s.data)

/-- `List.isPrefixOf` as an existential over the remainder. -/
theorem isPrefixOf_eq_true_iff (p l : List Char) :
    p.isPrefixOf l = true ↔ ∃ t, l = p ++ t := by
  induction p generalizing l with
  | nil =>
    simp [List.isPrefixOf]
  | cons a p ih =>
    cases l with
    | nil =>
      simp [List.isPrefixOf]
    | cons b l =>
      rw [show ((a :: p).isPrefixOf (b :: l)) = (a == b && p.isPrefixOf l) from rfl]
      simp only [Bool.and_eq_true, beq_iff_eq, ih]
      constructor
      · rintro ⟨rfl, t, rfl⟩
        exact ⟨t, rfl⟩
      · rintro ⟨t, ht⟩
        injection ht with h1 h2
        exact ⟨h1.symm, t, h2⟩

/-- Python substring containment is exactly decomposability around the
needle. -/
theorem listContains_iff (hay needle : List Char) :
    listContains hay needle = true ↔ ∃ pre suf, hay = pre ++ needle ++ suf := by
  induction hay with
  | nil =>
    rw [listContains, isPrefixOf_eq_true_iff]
    constructor
    · rintro ⟨t, ht⟩
      exact ⟨[], t, ht⟩
    · rintro ⟨pre, suf, h⟩
      rcases List.append_eq_nil.mp h.symm with ⟨h1, h2⟩
      rcases List.append_eq_nil.mp h1 with ⟨-, h3⟩
      exact ⟨[], by simp [h3]⟩
  | cons c rest ih =>
    rw [listContains, Bool.or_eq_true, isPrefixOf_eq_true_iff, ih]
    constructor
    · rintro (⟨t, ht⟩ | ⟨pre, suf, hs⟩)
      · exact ⟨[], t, by simpa using ht⟩
      · exact ⟨c :: pre, suf, by simp [hs]⟩
    · rintro ⟨pre, suf, h⟩
      cases pre with
      | nil => exact Or.inl ⟨suf, by simpa using h⟩
      | cons d pre2 =>
        injection h with h1 h2
        exact Or.inr ⟨pre2, suf, h2⟩

/-- A key absent from the front block is looked up in the appended block. -/
theorem lookupDB_append_of_none {db : DB} {k : String} (h : lookupDB db k = none)
    (l : DB) : lookupDB (db ++ l) k = lookupDB l k := by
  induction db with
  | nil => simp
  | cons kv rest ih =>
    by_cases hk : kv.1 = k
    · rw [lookupDB, if_pos hk] at h
      exact absurd h (by simp)
    · rw [lookupDB, if_neg hk] at h
      rw [List.cons_append, lookupDB, if_neg hk]
      exact ih h

/-- A successful lookup names an entry of the list. -/
theorem lookupDB_mem {db : DB} {k : String} {v : List String}
    (h : lookupDB db k = some v) : (k, v) ∈ db := by
  induction db with
  | nil => simp [lookupDB] at h
  | cons kv rest ih =>
    by_cases hk : kv.1 = k
    · rw [lookupDB, if_pos hk] at h
      injection h with h2
      rcases kv with ⟨k1, v1⟩
      simp only at hk h2
      simp [hk, h2]
    · rw [lookupDB, if_neg hk] at h
      exact List.mem_cons_of_mem _ (ih h)

/-- Updating a present key makes its lookup return the new value. -/
theorem lookupDB_update_self {db : DB} {k : String} {w : List String}
    (h : lookupDB db k = some w) (v : List String) :
    lookupDB (updateDB db k v) k = some v := by
  induction db with
  | nil => simp [lookupDB] at h
  | cons kv rest ih =>
    by_cases hk : kv.1 = k
    · rw [updateDB, if_pos hk, lookupDB, if_pos rfl]
    · rw [lookupDB, if_neg hk] at h
      rw [updateDB, if_neg hk, lookupDB, if_neg hk]
      exact ih h

/-- Every entry of an updated list is the new entry or an original one. -/
theorem mem_updateDB {db : DB} {k : String} {v : List String}
    {kv2 : String × List String} (h : kv2 ∈ updateDB db k v) :
    kv2 = (k, v) ∨ kv2 ∈ db := by
  induction db with
  | nil => simp [updateDB] at h
  | cons kv rest ih =>
    by_cases hk : kv.1 = k
    · rw [updateDB, if_pos hk] at h
      rcases List.mem_cons.mp h with h | h
      · exact Or.inl h
      · exact Or.inr (List.mem_cons_of_mem _ h)
    · rw [updateDB, if_neg hk] at h
      rcases List.mem_cons.mp h with h | h
      · exact Or.inr (by simp [h])
      · rcases ih h with h | h
        · exact Or.inl h
        · exact Or.inr (List.mem_cons_of_mem _ h)

/-- `processCard` on an absent card: the entry is created and the owner
appended. -/
theorem processCard_of_absent {db : DB} {o c : String} (h : lookupDB db c = none) :
    processCard db o c = (updateDB (db ++ [(c, [])]) c [o], true) := by
  have h1 : lookupDB (db ++ [(c, [])]) c = some [] := by
    rw [lookupDB_append_of_none h, lookupDB, if_pos rfl]
  simp [processCard, h, ownersOf, h1]

/-- `processCard` when the owner is already recorded: no change. -/
theorem processCard_of_mem {db : DB} {o c : String} {os : List String}
    (h : lookupDB db c = some os) (ho : o ∈ os) :
    processCard db o c = (db, false) := by
  simp [processCard, h, ownersOf, ho]

/-- `processCard` on a present card without this owner: the owner is
appended at the end of the card's list. -/
theorem processCard_of_not_mem {db : DB} {o c : String} {os : List String}
    (h : lookupDB db c = some os) (ho : o ∉ os) :
    processCard db o c = (updateDB db c (os ++ [o]), true) := by
  simp [processCard, h, ownersOf, ho]

/-- One `processCard` step preserves the per-card owner uniqueness
invariant. -/
theorem processCard_unique {db : DB} (o c : String) (h : OwnersUnique db) :
    OwnersUnique (processCard db o c).1 := by
  cases hl : lookupDB db c with
  | none =>
    rw [processCard_of_absent hl]
    intro kv hkv
    rcases mem_updateDB hkv with rfl | hkv2
    · simp
    · rcases List.mem_append.mp hkv2 with h2 | h2
      · exact h _ h2
      · simp only [List.mem_singleton] at h2
        simp [h2]
  | some os =>
    by_cases ho : o ∈ os
    · rw [processCard_of_mem hl ho]
      exact h
    · rw [processCard_of_not_mem hl ho]
      intro kv hkv
      rcases mem_updateDB hkv with rfl | hkv2
      · have hos : os.Nodup := h _ (lookupDB_mem hl)
        simp [List.nodup_append, hos, ho]
      · exact h _ hkv2

/-- The owner is recorded for the card after `processCard`. -/
theorem mem_ownersOf_processCard (db : DB) (o c : String) :
    o ∈ ownersOf (processCard db o c).1 c := by
  cases hl : lookupDB db c with
  | none =>
    rw [processCard_of_absent hl]
    have h1 : lookupDB (db ++ [(c, [])]) c = some [] := by
      rw [lookupDB_append_of_none hl, lookupDB, if_pos rfl]
    have h2 := lookupDB_update_self h1 [o]
    simp [ownersOf, h2]
  | some os =>
    by_cases ho : o ∈ os
    · rw [processCard_of_mem hl ho]
      simp [ownersOf, hl, ho]
    · rw [processCard_of_not_mem hl ho]
      have h2 := lookupDB_update_self hl (os ++ [o])
      simp [ownersOf, h2]

/-- A `processCard` step that reports no new owner leaves the dict
unchanged. -/
theorem processCard_snd_false {db : DB} {o c : String}
    (h : (processCard db o c).2 = false) : (processCard db o c).1 = db := by
  cases hl : lookupDB db c with
  | none =>
    rw [processCard_of_absent hl] at h
    simp at h
  | some os =>
    by_cases ho : o ∈ os
    · rw [processCard_of_mem hl ho]
    · rw [processCard_of_not_mem hl ho] at h
      simp at h

/-- The whole per-message indexing loop preserves owner uniqueness. -/
theorem processCards_unique (owner : String) (cards : List String) {db : DB}
    (h : OwnersUnique db) : OwnersUnique (processCards owner db cards).1 := by
  induction cards generalizing db with
  | nil => simpa [processCards] using h
  | cons card rest ih =>
    by_cases hc : card = ""
    · simpa [processCards, hc] using ih h
    · simp only [processCards, if_neg hc]
      exact ih (processCard_unique owner card h)

/-- If the loop reports no updated card, the dict is unchanged. -/
theorem processCards_no_update {owner : String} {cards : List String} {db : DB}
    (h : (processCards owner db cards).2 = []) :
    (processCards owner db cards).1 = db := by
  induction cards generalizing db with
  | nil => simp [processCards]
  | cons card rest ih =>
    by_cases hc : card = ""
    · simp only [processCards, if_pos hc] at h ⊢
      exact ih h
    · simp only [processCards, if_neg hc] at h ⊢
      by_cases hadd : (processCard db owner card).2 = true
      · simp [hadd] at h
      · have hf : (processCard db owner card).2 = false := by
          simpa using hadd
        have hdb : (processCard db owner card).1 = db := processCard_snd_false hf
        rw [hf] at h
        simp only [Bool.false_eq_true, if_false] at h
        rw [hdb] at h ⊢
        exact ih h

/-- The lexicographic comparison is total. -/
theorem charsLe_total (as bs : List Char) :
    charsLe as bs = true ∨ charsLe bs as = true := by
  induction as generalizing bs with
  | nil => exact Or.inl rfl
  | cons a as ih =>
    cases bs with
    | nil => exact Or.inr rfl
    | cons b bs =>
      by_cases hab : a = b
      · subst hab
        rcases ih bs with h | h
        · exact Or.inl (by simp [charsLe, h])
        · exact Or.inr (by simp [charsLe, h])
      · rcases lt_trichotomy a b with h | h | h
        · exact Or.inl (by simp [charsLe, hab, h])
        · exact absurd h hab
        · exact Or.inr (by simp [charsLe, Ne.symm hab, h])

/-- The lexicographic comparison is transitive. -/
theorem charsLe_trans {as bs cs : List Char}
    (h1 : charsLe as bs = true) (h2 : charsLe bs cs = true) :
    charsLe as cs = true := by
  induction as generalizing bs cs with
  | nil => rfl
  | cons a as ih =>
    cases bs with
    | nil => simp [charsLe] at h1
    | cons b bs =>
      cases cs with
      | nil => simp [charsLe] at h2
      | cons c cs =>
        by_cases hab : a = b <;> by_cases hbc : b = c
        · subst hab; subst hbc
          rw [charsLe, if_pos rfl] at h1 h2 ⊢
          exact ih h1 h2
        · subst hab
          rw [charsLe, if_pos rfl] at h1
          rw [charsLe, if_neg hbc] at h2 ⊢
          exact h2
        · subst hbc
          rw [charsLe, if_neg hab] at h1
          rw [charsLe, if_neg hab]
          exact h1
        · rw [charsLe, if_neg hab] at h1
          rw [charsLe, if_neg hbc] at h2
          have hac : a < c := lt_trans (of_decide_eq_true h1) (of_decide_eq_true h2)
          rw [charsLe, if_neg (ne_of_lt hac)]
          exact decide_eq_true hac

/-- `strLe` is total. -/
theorem strLe_total (a b : String) : strLe a b ∨ strLe b a :=
  charsLe_total a.data b.data

/-- `strLe` is transitive. -/
theorem strLe_trans {a b c : String} (h1 : strLe a b) (h2 : strLe b c) : strLe a c :=
  charsLe_trans h1 h2

/-- Membership in the accumulated owner lists of the search loop. -/
theorem mem_collectOwners {o : String} (q : String) (db : DB) :
    o ∈ collectOwners q db ↔
      ∃ kv ∈ db, strContains (pyLower kv.1) q = true ∧ o ∈ kv.2 := by
  induction db with
  | nil => simp [collectOwners]
  | cons kv rest ih =>
    by_cases hc : strContains (pyLower kv.1) q = true
    · rw [collectOwners, if_pos hc]
      rw [List.mem_append, ih]
      constructor
      · rintro (h | ⟨kv2, hkv2, hq2, ho2⟩)
        · exact ⟨kv, List.mem_cons_self kv rest, hc, h⟩
        · exact ⟨kv2, List.mem_cons_of_mem _ hkv2, hq2, ho2⟩
      · rintro ⟨kv2, hkv2, hq2, ho2⟩
        rcases List.mem_cons.mp hkv2 with rfl | hkv2
        · exact Or.inl ho2
        · exact Or.inr ⟨kv2, hkv2, hq2, ho2⟩
    · rw [collectOwners, if_neg hc, ih]
      constructor
      · rintro ⟨kv2, hkv2, hq2, ho2⟩
        exact ⟨kv2, List.mem_cons_of_mem _ hkv2, hq2, ho2⟩
      · rintro ⟨kv2, hkv2, hq2, ho2⟩
        rcases List.mem_cons.mp hkv2 with rfl | hkv2
        · exact absurd hq2 hc
        · exact ⟨kv2, hkv2, hq2, ho2⟩

/-- Reading back the serialized owner lists. -/
theorem decodeStrList_map_jstr (os : List String) :
    decodeStrList (os.map Jval.jstr) = some os := by
  induction os with
  | nil => rfl
  | cons s rest ih => simp [decodeStrList, ih]

/-- Reading back the serialized entries. -/
theorem decodeEntries_map_encode (db : DB) :
    decodeEntries (db.map (fun kv => (kv.1, encodeOwners kv.2))) = some db := by
  induction db with
  | nil => rfl
  | cons kv rest ih =>
    have h1 : decodeOwners (encodeOwners kv.2) = some kv.2 := by
      simp [decodeOwners, encodeOwners, decodeStrList_map_jstr]
    simp only [List.map_cons, decodeEntries, h1, ih]

/-- Pushing onto an already-truncated list truncates the untruncated push. -/
theorem take_cons_take (x : String) (l : List String) (n : Nat) :
    (x :: l.take n).take n = (x :: l).take n := by
  cases n with
  | zero => simp
  | succ m =>
    simp [List.take_succ_cons, List.take_take, Nat.min_eq_left (Nat.le_succ m)]

/-- The log fold keeps the most recent entries, newest first. -/
theorem foldl_log (entries : List (String × String)) :
    ∀ l : List String,
      entries.foldl (fun logs e => log_to_global e.1 logs e.2) (l.take 50) =
        ((entries.reverse.map (fun e => logEntry e.1 e.2)) ++ l).take 50 := by
  induction entries with
  | nil => intro l; simp
  | cons e rest ih =>
    intro l
    rw [List.foldl_cons]
    have hstep : log_to_global e.1 (l.take 50) e.2 = (logEntry e.1 e.2 :: l).take 50 :=
      take_cons_take _ _ _
    rw [hstep, ih (logEntry e.1 e.2 :: l)]
    simp [List.reverse_cons, List.map_append, List.append_assoc]

/-- `searchAvatars` tries the current position first, then moves one
character right. -/
theorem searchAvatars_cons (c : Char) (rest : List Char) :
    searchAvatars (c :: rest) =
      match avatarsMatchAt (c :: rest) with
      | some d => some d
      | none => searchAvatars rest := by
  rw [searchAvatars, avatarsMatchAt]
  by_cases hp : avatarsPat.isPrefixOf (c :: rest) = true
  · rw [if_pos hp, if_pos hp]
  · rw [if_neg hp, if_neg hp]

/-- Leftmost-match characterization of `re.search`: if the per-position
attempt succeeds at position `i` with digits `d` and fails at every earlier
position, the search returns `d`. -/
theorem searchAvatars_first {cs : List Char} {d : String} {i : Nat}
    (hfirst : avatarsMatchAt (cs.drop i) = some d)
    (hbefore : ∀ j < i, avatarsMatchAt (cs.drop j) = none) :
    searchAvatars cs = some d := by
  induction cs generalizing i with
  | nil =>
    rw [List.drop_nil, show avatarsMatchAt [] = none from by decide] at hfirst
    exact Option.noConfusion hfirst
  | cons c rest ih =>
    cases i with
    | zero =>
      rw [List.drop_zero] at hfirst
      rw [searchAvatars_cons, hfirst]
    | succ i =>
      have h0 : avatarsMatchAt (c :: rest) = none := by
        simpa using hbefore 0 (Nat.succ_pos i)
      rw [searchAvatars_cons, h0]
      apply ih (i := i)
      · simpa using hfirst
      · intro j hj
        simpa using hbefore (j + 1) (Nat.succ_lt_succ hj)

/-- Owner uniqueness is decidable (it is a finite conjunction of `Nodup`
checks). -/
instance (db : DB) : Decidable (OwnersUnique db) :=
  inferInstanceAs (Decidable (∀ kv ∈ db, kv.2.Nodup))

/-- An embed whose icon URL has no `/avatars/<digits>/` segment produces no
effect at all, whatever the other guards say. -/
theorem handleEmbed_of_no_id (db : DB) (file : DBFile) (e : Embed)
    (hx : extractOwnerId e.iconUrl = none) :
    handleEmbed db file e = ⟨db, file, [], false, false⟩ := by
  by_cases h1 : e.authorName ≠ "" ∧ e.description ≠ "" ∧ e.iconUrl ≠ ""
  · by_cases h2 : strContains (pyLower e.authorName) "collection" = true ∨
        strContains (pyLower e.authorName) "wishlist" = true
    · simp only [handleEmbed, if_pos h1, if_pos h2, hx]
    · simp only [handleEmbed, if_pos h1, if_neg h2]
  · simp only [handleEmbed, if_neg h1]

/-- Evaluation of the handler on a qualifying embed with a matched owner
id. -/
theorem handleEmbed_of_id (db : DB) (file : DBFile) (e : Embed) (oid : String)
    (h1 : e.authorName ≠ "" ∧ e.description ≠ "" ∧ e.iconUrl ≠ "")
    (h2 : strContains (pyLower e.authorName) "collection" = true ∨
      strContains (pyLower e.authorName) "wishlist" = true)
    (hx : extractOwnerId e.iconUrl = some oid) :
    handleEmbed db file e =
      if (processCards oid db (cardsInEmbed e.description)).2 = [] then
        ⟨(processCards oid db (cardsInEmbed e.description)).1, file,
          (processCards oid db (cardsInEmbed e.description)).2, false, false⟩
      else
        ⟨(processCards oid db (cardsInEmbed e.description)).1,
          save_database (processCards oid db (cardsInEmbed e.description)).1,
          (processCards oid db (cardsInEmbed e.description)).2, true, true⟩ := by
  simp only [handleEmbed, if_pos h1, if_pos h2, hx]

/-! ### Claim theorems -/

/-- C1: on the embed body `"12 - AB Firebolt Dragon\n\n34 -  Shield Knight"`
the split/clean/discard pipeline of `on_message` yields
`["Firebolt Dragon", "hield Knight"]`, not the `["Firebolt Dragon",
"Shield Knight"]` the claim states: on a line with no uppercase tag after the
dash, the greedy `[A-Z-]*` of `clean_card_name`'s regex consumes the card
name's leading capital letter. -/
theorem C1_extraction_eval :
    extractNonBlankCards "12 - AB Firebolt Dragon\n\n34 -  Shield Knight" =
        ["Firebolt Dragon", "hield Knight"] ∧
    extractNonBlankCards "12 - AB Firebolt Dragon\n\n34 -  Shield Knight" ≠
        ["Firebolt Dragon", "Shield Knight"] :=
  ⟨by decide, by decide⟩

/-- C2: from a database whose owner lists are duplicate-free, one indexing
step preserves that invariant (as does the whole per-message loop), and
indexing the same `(card, owner)` pair twice leaves exactly one occurrence of
the owner in the card's list. -/
theorem C2_owner_unique_idempotent (db : DB) (n o owner : String)
    (cards : List String) (h : OwnersUnique db) :
    OwnersUnique (processCard db o n).1 ∧
    OwnersUnique (processCards owner db cards).1 ∧
    (ownersOf (processCard (processCard db o n).1 o n).1 n).count o = 1 := by
  refine ⟨processCard_unique o n h, processCards_unique owner cards h, ?_⟩
  have h1 : OwnersUnique (processCard db o n).1 := processCard_unique o n h
  have hm : o ∈ ownersOf (processCard db o n).1 n := mem_ownersOf_processCard db o n
  cases hl : lookupDB (processCard db o n).1 n with
  | none =>
    rw [ownersOf, hl] at hm
    simp at hm
  | some os =>
    have ho : o ∈ os := by
      rw [ownersOf, hl] at hm
      simpa using hm
    rw [processCard_of_mem hl ho, ownersOf, hl]
    exact List.count_eq_one_of_mem (h1 _ (lookupDB_mem hl)) ho

/-- Witness for C2 at a concrete database, card and owner. -/
theorem C2_owner_unique_idempotent_witness :
    OwnersUnique [("Firebolt Dragon", ["1"])] ∧
    (OwnersUnique (processCard [("Firebolt Dragon", ["1"])] "2" "Shield").1 ∧
      OwnersUnique (processCards "2" [("Firebolt Dragon", ["1"])] ["Shield"]).1 ∧
      (ownersOf (processCard (processCard [("Firebolt Dragon", ["1"])] "2" "Shield").1
        "2" "Shield").1 "Shield").count "2" = 1) :=
  ⟨by decide, C2_owner_unique_idempotent [("Firebolt Dragon", ["1"])] "Shield" "2" "2"
    ["Shield"] (by decide)⟩

/-- C3 as stated is false on the code: `api_search` strips the query after
lowercasing, so the query `"drag "` (trailing space) matches
`"Firebolt Dragon"` even though no card name contains `"drag "`.  The
claim-worded search (`searchPerClaimC3`, no strip) returns `[]` there while
the code returns `["1", "2"]`. -/
theorem C3_counterexample :
    (api_search (save_database [("Firebolt Dragon", ["1", "2"]), ("Shield Knight", ["3"])])
        "drag ").owners = ["1", "2"] ∧
    searchPerClaimC3 [("Firebolt Dragon", ["1", "2"]), ("Shield Knight", ["3"])] "drag " = [] ∧
    (api_search (save_database [("Firebolt Dragon", ["1", "2"]), ("Shield Knight", ["3"])])
        "drag ").owners ≠
      searchPerClaimC3 [("Firebolt Dragon", ["1", "2"]), ("Shield Knight", ["3"])] "drag " :=
  ⟨by decide, by decide, by decide⟩

/-- C3 amended: `api_search` lowercases AND strips the query; when the
normalized query is empty it returns `[]`, otherwise exactly the sorted,
duplicate-free owner ids of the cards whose lowercased name contains the
normalized query as a substring. -/
theorem C3_search_characterization (f : DBFile) (q : String) :
    List.Sorted strLe (api_search f q).owners ∧
    (api_search f q).owners.Nodup ∧
    ∀ o, o ∈ (api_search f q).owners ↔
      (pyStrip (pyLower q) ≠ "" ∧
        ∃ kv ∈ dbOfJval (load_database f).1,
          (∃ pre suf, (pyLower kv.1).data = pre ++ (pyStrip (pyLower q)).data ++ suf) ∧
          o ∈ kv.2) := by
  by_cases hq : pyStrip (pyLower q) = ""
  · rw [show api_search f q = { owners := [], loads := 0 } from by simp [api_search, hq]]
    refine ⟨List.sorted_nil, List.nodup_nil, ?_⟩
    intro o
    simp [hq]
  · have hres : api_search f q =
        { owners := List.insertionSort strLe
            ((collectOwners (pyStrip (pyLower q)) (dbOfJval (load_database f).1)).dedup),
          loads := 1 } := by
      simp [api_search, hq]
    rw [hres]
    haveI : IsTotal String strLe := ⟨strLe_total⟩
    haveI : IsTrans String strLe := ⟨fun _ _ _ h1 h2 => strLe_trans h1 h2⟩
    refine ⟨List.sorted_insertionSort strLe _, ?_, ?_⟩
    · exact ((List.perm_insertionSort strLe _).nodup_iff).mpr (List.nodup_dedup _)
    · intro o
      rw [List.mem_insertionSort, List.mem_dedup, mem_collectOwners]
      constructor
      · rintro ⟨kv, hkv, hq2, ho⟩
        exact ⟨hq, kv, hkv, (listContains_iff _ _).mp hq2, ho⟩
      · rintro ⟨-, kv, hkv, hpre, ho⟩
        exact ⟨kv, hkv, (listContains_iff _ _).mpr hpre, ho⟩

/-- C4: an empty query string is answered with an empty owner list and zero
invocations of `load_database`, whatever the state of the store. -/
theorem C4_empty_query_no_read (f : DBFile) :
    api_search f "" = { owners := [], loads := 0 } :=
  rfl

/-- C5: a database file that exists but cannot be read or parsed makes
`load_database` return the empty mapping (and log an error) instead of
propagating the failure. -/
theorem C5_malformed_file_empty (err : String) :
    load_database (DBFile.content (Except.error err)) = (Jval.jobj [], true) ∧
    decodeDB (Jval.jobj []) = some [] :=
  ⟨rfl, rfl⟩

/-- C6: saving any database and loading it back reproduces the same mapping:
same keys in the same order, and each key's owner list unchanged. -/
theorem C6_save_load_roundtrip (db : DB) :
    decodeDB (load_database (save_database db)).1 = some db := by
  show decodeEntries (db.map (fun kv => (kv.1, encodeOwners kv.2))) = some db
  exact decodeEntries_map_encode db

/-- C7: the handler serializes the database exactly when some card received a
new owner, the log line is emitted exactly when it saves, and when nothing was
updated both the in-memory mapping and the file are untouched. -/
theorem C7_save_iff_new_owner (db : DB) (file : DBFile) (e : Embed) :
    ((handleEmbed db file e).saved = true ↔ (handleEmbed db file e).updated ≠ []) ∧
    (handleEmbed db file e).logged = (handleEmbed db file e).saved ∧
    ((handleEmbed db file e).updated = [] →
      (handleEmbed db file e).db = db ∧ (handleEmbed db file e).file = file) := by
  by_cases h1 : e.authorName ≠ "" ∧ e.description ≠ "" ∧ e.iconUrl ≠ ""
  case neg =>
    rw [show handleEmbed db file e = ⟨db, file, [], false, false⟩ from by
      simp only [handleEmbed, if_neg h1]]
    exact ⟨by simp, rfl, fun _ => ⟨rfl, rfl⟩⟩
  case pos =>
    by_cases h2 : strContains (pyLower e.authorName) "collection" = true ∨
        strContains (pyLower e.authorName) "wishlist" = true
    case neg =>
      rw [show handleEmbed db file e = ⟨db, file, [], false, false⟩ from by
        simp only [handleEmbed, if_pos h1, if_neg h2]]
      exact ⟨by simp, rfl, fun _ => ⟨rfl, rfl⟩⟩
    case pos =>
      cases hx : extractOwnerId e.iconUrl with
      | none =>
        rw [handleEmbed_of_no_id db file e hx]
        exact ⟨by simp, rfl, fun _ => ⟨rfl, rfl⟩⟩
      | some oid =>
        rw [handleEmbed_of_id db file e oid h1 h2 hx]
        by_cases hu : (processCards oid db (cardsInEmbed e.description)).2 = []
        · rw [if_pos hu]
          exact ⟨by simp [hu], rfl, fun _ => ⟨processCards_no_update hu, rfl⟩⟩
        · rw [if_neg hu]
          exact ⟨by simp [hu], rfl, fun habs => absurd habs hu⟩

/-- Witness for C7 at a concrete handler call. -/
theorem C7_save_iff_new_owner_witness :
    ((handleEmbed [] DBFile.absent ⟨"X", "y", "z"⟩).saved = true ↔
      (handleEmbed [] DBFile.absent ⟨"X", "y", "z"⟩).updated ≠ []) ∧
    (handleEmbed [] DBFile.absent ⟨"X", "y", "z"⟩).logged =
      (handleEmbed [] DBFile.absent ⟨"X", "y", "z"⟩).saved ∧
    ((handleEmbed [] DBFile.absent ⟨"X", "y", "z"⟩).updated = [] →
      (handleEmbed [] DBFile.absent ⟨"X", "y", "z"⟩).db = [] ∧
      (handleEmbed [] DBFile.absent ⟨"X", "y", "z"⟩).file = DBFile.absent) :=
  C7_save_iff_new_owner [] DBFile.absent ⟨"X", "y", "z"⟩

/-- C8 as stated is false on the code: `re.search` returns the LEFTMOST
`/avatars/<digits>/` match, so a URL that contains `/avatars/555/` after an
earlier `/avatars/123/` yields owner id `"123"`, not `"555"`. -/
theorem C8_counterexample :
    strContains "https://c/avatars/123//avatars/555/a.png" "/avatars/555/" = true ∧
    extractOwnerId "https://c/avatars/123//avatars/555/a.png" = some "123" ∧
    extractOwnerId "https://c/avatars/123//avatars/555/a.png" ≠ some "555" :=
  ⟨by decide, by decide, by decide⟩

/-- C8 amended: extraction returns the digits of the first
`/avatars/<digits>/` segment of the icon URL — for every URL whose
per-position avatar match first succeeds (at position `i`, failing at every
earlier position) with digits `d`, extraction yields `some d`; in particular,
for the author name `"Alice's Collection"` the label is `"Alice"`, and a URL
whose first such segment is `/avatars/555/` yields id `"555"` — and an embed
whose icon URL has no such segment is skipped with no database mutation at
all. -/
theorem C8_owner_extraction (db : DB) (f : DBFile) (e : Embed) (url d : String)
    (i : Nat) (h : extractOwnerId e.iconUrl = none)
    (hfirst : avatarsMatchAt (url.data.drop i) = some d)
    (hbefore : ∀ j < i, avatarsMatchAt (url.data.drop j) = none) :
    handleEmbed db f e = ⟨db, f, [], false, false⟩ ∧
    ownerLabel ("Alice" ++ apoS ++ " Collection") = "Alice" ∧
    extractOwnerId url = some d :=
  ⟨handleEmbed_of_no_id db f e h, by decide, searchAvatars_first hfirst hbefore⟩

/-- Witness for C8: a concrete skipped embed, and the concrete URL
`https://cdn.discordapp.com/avatars/555/abc.png`, whose first avatar segment
sits at position 26 and carries the digits 555. -/
theorem C8_owner_extraction_witness :
    handleEmbed [] DBFile.absent
        ⟨"Alice" ++ apoS ++ " Collection", "http://x/y.png", "1 - A Card"⟩ =
      ⟨[], DBFile.absent, [], false, false⟩ ∧
    ownerLabel ("Alice" ++ apoS ++ " Collection") = "Alice" ∧
    extractOwnerId "https://cdn.discordapp.com/avatars/555/abc.png" = some "555" :=
  C8_owner_extraction [] DBFile.absent
    ⟨"Alice" ++ apoS ++ " Collection", "http://x/y.png", "1 - A Card"⟩
    "https://cdn.discordapp.com/avatars/555/abc.png" "555" 26
    (by decide) (by decide) (by decide)

/-- C9: after any sequence of recording calls the log list is exactly the 50
most recent stamped entries, newest first (hence never longer than 50), and
`/api/logs` serves exactly this list. -/
theorem C9_log_buffer (entries : List (String × String)) :
    runLogs entries = ((entries.reverse.map (fun e => logEntry e.1 e.2)).take 50) ∧
    (runLogs entries).length ≤ 50 ∧
    api_logs (runLogs entries) = runLogs entries := by
  have h := foldl_log entries []
  simp only [List.take_nil, List.append_nil] at h
  refine ⟨h, ?_, rfl⟩
  rw [show runLogs entries = _ from h]
  exact List.length_take_le _ _

/-- C10: whatever the input line — with or without a numeric/tag prefix — the
cleaned card name carries no leading or trailing whitespace: it is a fixed
point of `strip`. -/
theorem C10_clean_name_stripped (line : String) :
    pyStrip (clean_card_name line) = clean_card_name line := by
  unfold clean_card_name
  exact pyStrip_pyStrip _

end Lumina





